import Mathlib

/-
Verification of the FastReader RSVP reader core (app.js, PdfLoader module).

The development shallowly embeds the tokenizer, the pacing engine, the
playback scheduler's play/schedule functions, and the PDF loader's page
aggregation and waiter machinery as executable Lean definitions, and then
settles the frozen claims C1 .. C10 against them.

Conventions of the embedding:
- JS strings are `List Char`; JS numbers are `Int` (or `Nat` where the code
  only ever holds non-negative integers) and `Rat` for the fractional pause
  multipliers.  The float multipliers of PAUSE_PROFILES are embedded as the
  exact rationals written in the source; no claim in scope depends on
  binary-float rounding of these products.
- The Unicode character classes `\p{L}\p{N}` and `\s` of the source regexes
  are embedded over the ASCII fragment (`Char.isAlpha || Char.isDigit` and
  `Char.isWhitespace`); all claims in scope are generic in the class.
- Regex scanning (global `match`) is embedded as an explicit left-to-right
  maximal-munch scanner with a fuel argument equal to the input length, so
  every definition reduces by `decide` / `rfl`.
- The asynchronous loader is embedded as a state record plus one state
  transformer per atomic code segment (the code between two suspension
  points); real-time latencies (performance.now, setTimeout delays) carry no
  token-level information and are not modelled.
-/

namespace RSVP

/-- Character class of the regex `[\p{L}\p{N}]` (letters and digits) used by
both tokenizers, over the ASCII fragment. -/
def isWordChar (c : Char) : Bool := c.isAlpha || c.isDigit

/-- Character class of the regex `\s` and of String.prototype.trim. -/
def isSpaceChar (c : Char) : Bool := c.isWhitespace

/-- The apostrophe class `['']` of the tokenizer regex (both characters in the
source are the ASCII apostrophe). -/
def isApos (c : Char) : Bool := c = '\''

/-- The literal dot of the `(?:\.[\p{L}\p{N}]+)*` group. -/
def isDot (c : Char) : Bool := c = '.'

/-- True iff the list starts with a `[\p{L}\p{N}]` character. -/
def startsWordChar : List Char → Bool
  | [] => false
  | c :: _ => isWordChar c

/-- Embedding of `text.replace(/\r\n/g, '\n')` (left-to-right, non-overlapping). -/
def replaceCRLF : List Char → List Char
  | [] => []
  | '\r' :: '\n' :: cs => '\n' :: replaceCRLF cs
  | c :: cs => c :: replaceCRLF cs

/-- Embedding of `.replace(/\r/g, '\n')`. -/
def replaceCR (cs : List Char) : List Char :=
  cs.map (fun c => if c = '\r' then '\n' else c)

/-- Embedding of `.replace(/\n{2,}/g, '\n\n')`: each maximal run of two or
more line breaks is collapsed to exactly two.  The accumulator counts the
line breaks already emitted for the current run (capped at 2). -/
def collapseNLAux : Nat → List Char → List Char
  | _, [] => []
  | run, c :: cs =>
    if c = '\n' then
      if run < 2 then '\n' :: collapseNLAux (run + 1) cs
      else collapseNLAux run cs
    else c :: collapseNLAux 0 cs

/-- The three-step line-ending normalization at the top of `tokenize` and
`tokenizePage`. -/
def normalizeText (cs : List Char) : List Char :=
  collapseNLAux 0 (replaceCR (replaceCRLF cs))

/-- Embedding of `normalized.split(/\n\n+/)`.  `mode` is 0 outside a line-break
run, 1 after a single line break (which stays inside the paragraph unless a
second one follows), 2 inside a separator run (absorbing further breaks).
Empty pieces are produced exactly where String.prototype.split produces
them. -/
def splitParasAux (cur : List Char) (mode : Nat) : List Char → List (List Char)
  | [] => if mode = 1 then [('\n' :: cur).reverse] else [cur.reverse]
  | c :: cs =>
    if c = '\n' then
      if mode = 0 then splitParasAux cur 1 cs
      else if mode = 1 then cur.reverse :: splitParasAux [] 2 cs
      else splitParasAux [] 2 cs
    else
      if mode = 1 then splitParasAux (c :: '\n' :: cur) 0 cs
      else splitParasAux (c :: cur) 0 cs

/-- Split the normalized text into paragraph pieces, as `split(/\n\n+/)`. -/
def splitParas (cs : List Char) : List (List Char) :=
  splitParasAux [] 0 cs

/-- Embedding of `paragraphs[p].trim()`. -/
def trimChars (cs : List Char) : List Char :=
  ((cs.dropWhile isSpaceChar).reverse.dropWhile isSpaceChar).reverse

/-- Greedy run of non-whitespace characters, the `[^\s]+` of the URL
alternatives (first component) together with the unconsumed rest. -/
def nonSpaceRun (cs : List Char) : List Char × List Char :=
  (cs.takeWhile (fun c => !isSpaceChar c), cs.dropWhile (fun c => !isSpaceChar c))

/-- Greedy run of the punctuation class `[^\p{L}\p{N}\s]` together with the
rest. -/
def punctRun (cs : List Char) : List Char × List Char :=
  (cs.takeWhile (fun c => !isWordChar c && !isSpaceChar c),
   cs.dropWhile (fun c => !isWordChar c && !isSpaceChar c))

/-- Attempt of the first regex alternative `https?:\/\/[^\s]+` at the current
position; on success returns the match and the rest. -/
def matchHttp (cs : List Char) : Option (List Char × List Char) :=
  if "https://".toList.isPrefixOf cs then
    let q := nonSpaceRun (cs.drop 8)
    if q.1 = [] then none else some ("https://".toList ++ q.1, q.2)
  else if "http://".toList.isPrefixOf cs then
    let q := nonSpaceRun (cs.drop 7)
    if q.1 = [] then none else some ("http://".toList ++ q.1, q.2)
  else none

/-- Attempt of the second regex alternative `www\.[^\s]+`. -/
def matchWww (cs : List Char) : Option (List Char × List Char) :=
  if "www.".toList.isPrefixOf cs then
    let q := nonSpaceRun (cs.drop 4)
    if q.1 = [] then none else some ("www.".toList ++ q.1, q.2)
  else none

/-- Embedding of a greedy group iteration `(?:g[\p{L}\p{N}]+)*`: repeatedly
consume one `g` character followed by a non-empty word-character run.  The
fuel argument (instantiated with the input length) makes the recursion
structural so that the definition reduces inside `decide`. -/
def matchGroupsF (g : Char → Bool) : Nat → List Char → List Char × List Char
  | 0, cs => ([], cs)
  | _ + 1, [] => ([], [])
  | fuel + 1, c :: cs =>
    if g c && startsWordChar cs then
      let q := matchGroupsF g fuel (cs.dropWhile isWordChar)
      (c :: (cs.takeWhile isWordChar ++ q.1), q.2)
    else ([], c :: cs)

/-- Embedding of the word alternative
`[\p{L}\p{N}]+(?:[''][\p{L}\p{N}]+)*(?:\.[\p{L}\p{N}]+)*`: a greedy word run,
then greedy apostrophe groups, then greedy dot groups.  Only called by the
scanner at positions whose head is a word character. -/
def matchWordCore (cs : List Char) : List Char × List Char :=
  let r0 := cs.dropWhile isWordChar
  let qa := matchGroupsF isApos r0.length r0
  let qd := matchGroupsF isDot qa.2.length qa.2
  (cs.takeWhile isWordChar ++ qa.1 ++ qd.1, qd.2)

/-- One pass of `para.match(re)` with the tokenizer regex: the list of
matches, left to right; characters where no alternative matches (exactly the
whitespace characters) are skipped.  Fuel is the input length. -/
def scanAux : Nat → List Char → List (List Char)
  | 0, _ => []
  | _ + 1, [] => []
  | fuel + 1, c :: cs =>
    if isSpaceChar c then scanAux fuel cs
    else
      match matchHttp (c :: cs) with
      | some mr => mr.1 :: scanAux fuel mr.2
      | none =>
        match matchWww (c :: cs) with
        | some mr => mr.1 :: scanAux fuel mr.2
        | none =>
          if isWordChar c then
            (matchWordCore (c :: cs)).1 :: scanAux fuel (matchWordCore (c :: cs)).2
          else
            (punctRun (c :: cs)).1 :: scanAux fuel (punctRun (c :: cs)).2

/-- All regex matches of one paragraph. -/
def scanMatches (cs : List Char) : List (List Char) :=
  scanAux cs.length cs

/-- A token as produced by both tokenizers: `{ word, isParagraphEnd }`. -/
structure Tok where
  word : List Char
  isParagraphEnd : Bool
deriving Repr, DecidableEq

/-- Embedding of the word-likeness test
`/^[\p{L}\p{N}]/u.test(t) || /^https?:\/\//i.test(t) || /^www\./i.test(t)`. -/
def isWordLikeTok (m : List Char) : Bool :=
  startsWordChar m
    || "http://".toList.isPrefixOf (m.map Char.toLower)
    || "https://".toList.isPrefixOf (m.map Char.toLower)
    || "www.".toList.isPrefixOf (m.map Char.toLower)

/-- One iteration of the match loop: a word-like match starts a new token, a
punctuation match is appended to the previous token's text, and is dropped
when there is no previous token.  The accumulator is kept reversed (head =
most recently produced token), mirroring mutation of the last array entry. -/
def stepTok (acc : List Tok) (m : List Char) : List Tok :=
  if isWordLikeTok m then ⟨m, false⟩ :: acc
  else
    match acc with
    | [] => []
    | t :: ts => ⟨t.word ++ m, t.isParagraphEnd⟩ :: ts

/-- Embedding of `output[output.length - 1].isParagraphEnd = true` (a no-op on
an empty output, as in the guarded source). -/
def markParagraphEnd : List Tok → List Tok
  | [] => []
  | t :: ts => ⟨t.word, true⟩ :: ts

/-- The paragraph loop shared by `tokenize` and `tokenizePage`: paragraphs
whose trim is empty are skipped; every non-last processed paragraph marks the
current last token as a paragraph end.  The accumulator is reversed. -/
def processParas : List (List Char) → List Tok → List Tok
  | [], acc => acc
  | p :: rest, acc =>
    let t := trimChars p
    if t = [] then processParas rest acc
    else
      let acc' := (scanMatches t).foldl stepTok acc
      match rest with
      | [] => acc'
      | _ :: _ => processParas rest (markParagraphEnd acc')

/-- The token list both tokenizers build before their final return. -/
def tokenizeCore (cs : List Char) : List Tok :=
  (processParas (splitParas (normalizeText cs)) []).reverse

/-- Embedding of app.js `tokenize`: falls back to a single whitespace token
when no token was produced. -/
def tokenize (cs : List Char) : List Tok :=
  let out := tokenizeCore cs
  if out = [] then [⟨[' '], false⟩] else out

/-- Embedding of `PdfLoader.tokenizePage`: identical scan, but the possibly
empty token list is returned as is. -/
def tokenizePage (cs : List Char) : List Tok :=
  tokenizeCore cs

/-! Aggregation (`PdfLoader.rebuildAggregatedContent`).  The `loadedPages`
Map is embedded as an association list `pageNum ↦ words` (first binding
wins, as in a Map whose keys are never re-set). -/

/-- The key set of the loaded-pages map, in insertion order. -/
def ordinals (pages : List (Nat × List Tok)) : List Nat :=
  pages.map Prod.fst

/-- Embedding of `Array.from(this.loadedPages.keys()).sort((a, b) => a - b)`.
Comparator sorting of distinct numbers is numeric-order sorting; embedded as
insertion sort, which is extensionally any stable sort. -/
def sortedOrdinals (pages : List (Nat × List Tok)) : List Nat :=
  List.insertionSort (· ≤ ·) (ordinals pages)

/-- The stored token list of one page (`loadedPages.get(pageNum).words`),
empty when the page is absent. -/
def pageWords (pages : List (Nat × List Tok)) (n : Nat) : List Tok :=
  (pages.lookup n).getD []

/-- Concatenation of the pages' token lists in the given ordinal order. -/
def concatWords (pages : List (Nat × List Tok)) (ns : List Nat) : List Tok :=
  (ns.map (pageWords pages)).flatten

/-- Embedding of the `allWords` field rebuilt by
`rebuildAggregatedContent`: the loaded pages' tokens concatenated in sorted
ordinal order. -/
def allWordsOf (pages : List (Nat × List Tok)) : List Tok :=
  concatWords pages (sortedOrdinals pages)

/-- One recorded entry of `pageWordRanges`: the page ordinal together with
`start` (the aggregated length before the page was pushed) and `stop`
(`allWords.length - 1` just after, an integer that is `start - 1` for an
empty page). -/
structure WordRange where
  pageNum : Nat
  start : Nat
  stop : Int
deriving Repr, DecidableEq

/-- The range-recording loop of `rebuildAggregatedContent`, over an ordinal
list with the running aggregated length `idx`. -/
def rangesAux (pages : List (Nat × List Tok)) : List Nat → Nat → List WordRange
  | [], _ => []
  | n :: ns, idx =>
    let len := (pageWords pages n).length
    ⟨n, idx, (idx : Int) + len - 1⟩ :: rangesAux pages ns (idx + len)

/-- Embedding of the `pageWordRanges` index rebuilt by
`rebuildAggregatedContent` (one record per loaded page, in sorted ordinal
order). -/
def wordRangesOf (pages : List (Nat × List Tok)) : List WordRange :=
  rangesAux pages (sortedOrdinals pages) 0

/-! The loader state machine (`PdfLoader`).  Each definition below is the
state transformer of one atomic segment of the asynchronous code, i.e. the
code executed between two suspension points.  Waiters (pending promises) are
identified by numeric ids; a resolution is recorded by moving the id into
the corresponding `resolved…` list, preserving resolution order. -/

/-- The value stored for a loaded page (`{ text, words }`; the load-time
stopwatch value carries no information and is not modelled). -/
structure PageData where
  text : List Char
  words : List Tok
deriving Repr, DecidableEq

/-- The mutable fields of a `PdfLoader` relevant to the page pipeline,
together with the resolution ledgers of the model. -/
structure LoaderState where
  totalPages : Nat
  loadedPages : List (Nat × PageData)
  loadingPages : List Nat
  nextPageToLoad : Nat
  isBackgroundLoading : Bool
  allPagesLoaded : Bool
  contentWaiters : List Nat
  resolvedWaiters : List Nat
  pollWaiters : List (Nat × Nat)
  resolvedPolls : List (Nat × Option (List Char))
  primaryWaiters : List (Nat × Nat)
  rejectedCallers : List Nat
  fetchesIssued : List Nat
deriving Repr, DecidableEq

/-- A fresh loader after `init` reported `totalPages` pages. -/
def initLoader (totalPages : Nat) : LoaderState :=
  ⟨totalPages, [], [], 1, false, false, [], [], [], [], [], [], []⟩

/-- The loaded token lists of a state, as fed to the aggregation. -/
def wordsPages (s : LoaderState) : List (Nat × List Tok) :=
  s.loadedPages.map (fun p => (p.1, p.2.words))

/-- Embedding of `getAllWords` right after a rebuild. -/
def getAllWords (s : LoaderState) : List Tok :=
  allWordsOf (wordsPages s)

/-- Embedding of `waitForContent`: with a fetch outstanding or the background
cycle running the caller is queued, otherwise it resolves immediately. -/
def waitForContent (w : Nat) (s : LoaderState) : LoaderState :=
  if 0 < s.loadingPages.length ∨ s.isBackgroundLoading = true then
    { s with contentWaiters := s.contentWaiters ++ [w] }
  else
    { s with resolvedWaiters := s.resolvedWaiters ++ [w] }

/-- Embedding of `resolveWaiters`: the queue is drained front first, so the
waiters resolve in registration order. -/
def resolveWaiters (s : LoaderState) : LoaderState :=
  { s with contentWaiters := [], resolvedWaiters := s.resolvedWaiters ++ s.contentWaiters }

/-- Embedding of the synchronous prefix of `loadPage(pageNum)` for caller
`w`: out-of-range ordinals resolve with null at once, a loaded page resolves
with its stored text at once, an in-flight page queues the caller on the
polling list without issuing a fetch, and otherwise the ordinal is marked
loading and a fetch is issued with `w` as the primary caller. -/
def loadPageCall (n w : Nat) (s : LoaderState) : LoaderState :=
  if n < 1 ∨ s.totalPages < n then
    { s with resolvedPolls := s.resolvedPolls ++ [(w, none)] }
  else
    match s.loadedPages.lookup n with
    | some pd => { s with resolvedPolls := s.resolvedPolls ++ [(w, some pd.text)] }
    | none =>
      if n ∈ s.loadingPages then
        { s with pollWaiters := s.pollWaiters ++ [(n, w)] }
      else
        { s with
            loadingPages := n :: s.loadingPages,
            primaryWaiters := s.primaryWaiters ++ [(n, w)],
            fetchesIssued := s.fetchesIssued ++ [n] }

/-- Embedding of the success continuation of `loadPage`: store the page,
unmark loading, rebuild (the aggregated fields are derived), resolve every
content waiter, and resolve the primary caller with the page text. -/
def loadPageSuccess (n : Nat) (pd : PageData) (s : LoaderState) : LoaderState :=
  let s1 :=
    { s with
        loadedPages := s.loadedPages ++ [(n, pd)],
        loadingPages := s.loadingPages.erase n,
        resolvedPolls :=
          s.resolvedPolls ++ (s.primaryWaiters.filter (fun p => p.1 = n)).map
            (fun p => (p.2, some pd.text)),
        primaryWaiters := s.primaryWaiters.filter (fun p => p.1 ≠ n) }
  resolveWaiters s1

/-- Embedding of the catch branch of `loadPage`: unmark loading, reject the
primary caller.  No content waiter and no polling caller is touched, and the
page is not recorded anywhere. -/
def loadPageFailure (n : Nat) (s : LoaderState) : LoaderState :=
  { s with
      loadingPages := s.loadingPages.erase n,
      rejectedCallers :=
        s.rejectedCallers ++ (s.primaryWaiters.filter (fun p => p.1 = n)).map Prod.snd,
      primaryWaiters := s.primaryWaiters.filter (fun p => p.1 ≠ n) }

/-- One tick of the 50 ms polling interval registered for a duplicate
`loadPage` caller: it resolves with the stored text once the page is loaded
and does nothing otherwise. -/
def pollCheck (n w : Nat) (s : LoaderState) : LoaderState :=
  if (n, w) ∈ s.pollWaiters then
    match s.loadedPages.lookup n with
    | some pd =>
        { s with
            pollWaiters := s.pollWaiters.erase (n, w),
            resolvedPolls := s.resolvedPolls ++ [(w, some pd.text)] }
    | none => s
  else s

/-- Embedding of `startBackgroundLoading` (idempotent guard). -/
def startBackgroundLoading (s : LoaderState) : LoaderState :=
  if s.isBackgroundLoading = true ∨ s.allPagesLoaded = true then s
  else { s with isBackgroundLoading := true }

/-- Embedding of the entry of `_loadNextPageInBackground`: a stopped cycle
does nothing; past the last page the cycle terminates, setting
`allPagesLoaded`, without resolving any waiter; otherwise the step proceeds
to `loadPage(nextPageToLoad)` (a separate event). -/
def bgCheckTerminate (s : LoaderState) : LoaderState :=
  if s.isBackgroundLoading = false then s
  else if s.totalPages < s.nextPageToLoad then
    { s with isBackgroundLoading := false, allPagesLoaded := true }
  else s

/-- Embedding of `this.nextPageToLoad++` after a background page attempt. -/
def bgAdvance (s : LoaderState) : LoaderState :=
  { s with nextPageToLoad := s.nextPageToLoad + 1 }

/-! The pacing engine and the scheduler entry points (app.js). -/

/-- A pause profile (`PAUSE_PROFILES` entry).  Every multiplier in the source
is a decimal number with exactly one fractional digit (4.0, 1.5, 1.3, …);
each is embedded exactly as its value in tenths (40, 15, 13, …), so that
`Math.floor(base * multiplier)` is exactly `base * tenths / 10` in integer
division (all values involved are non-negative).  No claim in scope depends
on binary-float rounding of these products. -/
structure PauseProfile where
  sentence : Int
  comma : Int
  paragraph : Int
  longWord : Int
  number : Int
  minSentenceMs : Int
  minCommaMs : Int
deriving Repr, DecidableEq

/-- The relaxed profile (multipliers 4.0, 2.0, 4.0, 1.5, 2.0 in tenths). -/
def relaxedProfile : PauseProfile := ⟨40, 20, 40, 15, 20, 400, 200⟩

/-- The normal profile (multipliers 3.0, 1.5, 3.0, 1.3, 1.5 in tenths). -/
def normalProfile : PauseProfile := ⟨30, 15, 30, 13, 15, 300, 150⟩

/-- The speed profile (multipliers 1.5, 1.2, 1.5, 1.1, 1.2 in tenths). -/
def speedProfile : PauseProfile := ⟨15, 12, 15, 11, 12, 150, 80⟩

/-- The `PAUSE_PROFILES` table. -/
def pauseProfiles : List (String × PauseProfile) :=
  [("relaxed", relaxedProfile), ("normal", normalProfile), ("speed", speedProfile)]

/-- Embedding of `getActiveProfile`: table lookup with fallback to normal. -/
def getActiveProfile (key : String) : PauseProfile :=
  (pauseProfiles.lookup key).getD normalProfile

/-- Embedding of `baseIntervalMs`: null for a non-positive rate, otherwise
`Math.max(1, Math.floor(60000 / wpm))`. -/
def baseIntervalMs (wpm : Int) : Option Int :=
  if wpm ≤ 0 then none else some (max 1 (60000 / wpm))

/-- The test `/[.!?]$/.test(word)`. -/
def endsSentence (w : List Char) : Bool :=
  match w.getLast? with
  | some c => c = '.' || c = '!' || c = '?'
  | none => false

/-- The test `/[,;:]$/.test(word)`. -/
def endsComma (w : List Char) : Bool :=
  match w.getLast? with
  | some c => c = ',' || c = ';' || c = ':'
  | none => false

/-- The letter/digit-only content `word.replace(/[^\p{L}\p{N}]/gu, '')`. -/
def cleanWord (w : List Char) : List Char :=
  w.filter isWordChar

/-- The test `/\d/.test(word)` (ASCII digits, exactly as in the source). -/
def hasDigit (w : List Char) : Bool :=
  w.any Char.isDigit

/-- Embedding of `dwellMsForToken`: null when the base interval is null;
otherwise the sequential max-combination of the profile multipliers (in
tenths, starting from 1.0 = 10) followed by `Math.floor` and the
sentence/comma minimum clamps. -/
def dwellMsForToken (profile : PauseProfile) (t : Tok) (wpm : Int) : Option Int :=
  match baseIntervalMs wpm with
  | none => none
  | some base =>
    let w := t.word
    let m1 : Int :=
      if endsSentence w then max 10 profile.sentence
      else if endsComma w then max 10 profile.comma
      else 10
    let m2 : Int := if 8 < (cleanWord w).length then max m1 profile.longWord else m1
    let m3 : Int := if hasDigit w then max m2 profile.number else m2
    let m4 : Int := if t.isParagraphEnd then max m3 profile.paragraph else m3
    let dwell : Int := base * m4 / 10
    let dwell : Int := if endsSentence w then max dwell profile.minSentenceMs else dwell
    let dwell : Int := if ¬ endsSentence w ∧ endsComma w then max dwell profile.minCommaMs else dwell
    some dwell

/-- The scheduler state touched by `setPlaying` and `scheduleNext` (plain
text mode: `isPdfMode` is false, so the loader-starvation branch of
`scheduleNext` is not reachable and not modelled).  `timer` is the armed
one-shot timer's dwell, `none` when no timer is armed. -/
structure SchedState where
  wpm : Int
  profileKey : String
  isPlaying : Bool
  timer : Option Int
  index : Nat
  words : List Tok
  loopEnabled : Bool
deriving Repr, DecidableEq

/-- Embedding of `scheduleNext` in plain-text mode.  The result is `none`
exactly when the source would throw (`words[index]` undefined while looping):
otherwise the updated state, with a timer armed only when the dwell is
defined. -/
def scheduleNext (s : SchedState) : Option SchedState :=
  if s.isPlaying = false then some s
  else if s.loopEnabled = false ∧ (s.words.length : Int) - 1 ≤ (s.index : Int) then
    some { s with isPlaying := false, timer := none }
  else
    match s.words[s.index]? with
    | none => none
    | some tok =>
      match dwellMsForToken (getActiveProfile s.profileKey) tok s.wpm with
      | none => some s
      | some ms => some { s with timer := some ms }

/-- Embedding of `setPlaying(v)`: record the state, cancel any timer, and
schedule only when turning on with a positive rate. -/
def setPlaying (v : Bool) (s : SchedState) : Option SchedState :=
  let s1 : SchedState := { s with isPlaying := v, timer := none }
  if v = true ∧ 0 < s1.wpm then scheduleNext s1 else some s1

/-- Whether the list starts with a character satisfying `p`. -/
def headSat (p : Char → Bool) : List Char → Bool
  | [] => false
  | c :: _ => p c

/-- Whether the list starts a `(?:g[\p{L}\p{N}]+)` group: a `g` character
followed by a word character. -/
def groupStart (g : Char → Bool) : List Char → Bool
  | [] => false
  | c :: cs => g c && startsWordChar cs

/-! Theorems. -/

theorem startsWordChar_eq_headSat (l : List Char) :
    startsWordChar l = headSat isWordChar l := by
  cases l <;> rfl

theorem headSat_append_of_ne_nil (p : Char → Bool) (x y : List Char) (hx : x ≠ []) :
    headSat p (x ++ y) = headSat p x := by
  cases x with
  | nil => exact absurd rfl hx
  | cons c cs => rfl

theorem takeWhile_dropWhile_length (p : Char → Bool) (l : List Char) :
    (l.takeWhile p).length + (l.dropWhile p).length = l.length := by
  have h := congrArg List.length (List.takeWhile_append_dropWhile p l)
  rw [List.length_append] at h
  exact h

/-- Appending does not change a take/drop split whose drop part is
non-empty. -/
theorem takeWhile_append_of_drop_ne (p : Char → Bool) :
    ∀ (l b : List Char), l.dropWhile p ≠ [] →
      (l ++ b).takeWhile p = l.takeWhile p ∧
      (l ++ b).dropWhile p = l.dropWhile p ++ b := by
  intro l
  induction l with
  | nil => intro b h; exact absurd rfl h
  | cons x xs ih =>
    intro b h
    by_cases hp : p x = true
    · have h' : xs.dropWhile p ≠ [] := by
        rw [List.dropWhile_cons, if_pos hp] at h
        exact h
      constructor
      · simp [List.takeWhile_cons, hp, (ih b h').1]
      · simp [List.dropWhile_cons, hp, (ih b h').2]
    · constructor
      · simp [List.takeWhile_cons, hp]
      · simp [List.dropWhile_cons, hp]

/-- Appending after a fully taken list whose continuation does not satisfy
`p` splits cleanly. -/
theorem takeWhile_append_all (p : Char → Bool) :
    ∀ (l b : List Char), (∀ c ∈ l, p c = true) → headSat p b = false →
      (l ++ b).takeWhile p = l ∧ (l ++ b).dropWhile p = b := by
  intro l
  induction l with
  | nil =>
    intro b _ hb
    cases b with
    | nil => exact ⟨rfl, rfl⟩
    | cons x xs =>
      have hx : p x = false := hb
      constructor
      · simp [List.takeWhile_cons, hx]
      · simp [List.dropWhile_cons, hx]
  | cons x xs ih =>
    intro b hl hb
    have hx : p x = true := hl x (by simp)
    have hind := ih b (fun c hc => hl c (by simp [hc])) hb
    constructor
    · simp [List.takeWhile_cons, hx, hind.1]
    · simp [List.dropWhile_cons, hx, hind.2]

/-- Unfolding equation of the group matcher in the step case. -/
theorem matchGroupsF_cons (g : Char → Bool) (f : Nat) (c : Char) (cs : List Char) :
    matchGroupsF g (f + 1) (c :: cs) =
      if g c && startsWordChar cs then
        (c :: (cs.takeWhile isWordChar ++ (matchGroupsF g f (cs.dropWhile isWordChar)).1),
         (matchGroupsF g f (cs.dropWhile isWordChar)).2)
      else ([], c :: cs) := rfl

/-- The group matcher on an empty list is empty. -/
theorem matchGroupsF_nil (g : Char → Bool) (f : Nat) :
    matchGroupsF g f [] = ([], []) := by
  cases f <;> rfl

/-- At a position that does not start a group the matcher consumes
nothing. -/
theorem matchGroupsF_no_group (g : Char → Bool) (f : Nat) (b : List Char)
    (hb : groupStart g b = false) : matchGroupsF g f b = ([], b) := by
  cases f with
  | zero => rfl
  | succ f =>
    cases b with
    | nil => rfl
    | cons c cs =>
      have hb' : (g c && startsWordChar cs) = false := hb
      rw [matchGroupsF_cons, if_neg (by simp [hb'])]

/-- The two components of the group matcher concatenate back to the
input. -/
theorem matchGroupsF_append_eq (g : Char → Bool) :
    ∀ (f : Nat) (l : List Char),
      (matchGroupsF g f l).1 ++ (matchGroupsF g f l).2 = l := by
  intro f
  induction f with
  | zero => intro l; rfl
  | succ f ih =>
    intro l
    cases l with
    | nil => rfl
    | cons c cs =>
      rw [matchGroupsF_cons]
      by_cases hc : (g c && startsWordChar cs) = true
      · rw [if_pos hc]
        simp only [List.cons_append, List.append_assoc]
        rw [ih (cs.dropWhile isWordChar), List.takeWhile_append_dropWhile]
      · rw [if_neg hc]
        rfl

/-- The group matcher does not depend on the fuel as long as the fuel covers
the input length. -/
theorem matchGroupsF_fuel (g : Char → Bool) :
    ∀ (f₁ f₂ : Nat) (l : List Char), l.length ≤ f₁ → l.length ≤ f₂ →
      matchGroupsF g f₁ l = matchGroupsF g f₂ l := by
  intro f₁
  induction f₁ with
  | zero =>
    intro f₂ l h1 _
    have hl : l = [] := List.length_eq_zero.mp (Nat.le_zero.mp h1)
    subst hl
    rw [matchGroupsF_nil, matchGroupsF_nil]
  | succ f ih =>
    intro f₂ l h1 h2
    cases l with
    | nil => rw [matchGroupsF_nil, matchGroupsF_nil]
    | cons c cs =>
      cases f₂ with
      | zero => simp at h2
      | succ f₂' =>
        rw [matchGroupsF_cons, matchGroupsF_cons]
        by_cases hc : (g c && startsWordChar cs) = true
        · rw [if_pos hc, if_pos hc]
          have hdw : (cs.dropWhile isWordChar).length ≤ cs.length := by
            have := takeWhile_dropWhile_length isWordChar cs
            omega
          have hl1 : (cs.dropWhile isWordChar).length ≤ f := by
            simp only [List.length_cons] at h1
            omega
          have hl2 : (cs.dropWhile isWordChar).length ≤ f₂' := by
            simp only [List.length_cons] at h2
            omega
          rw [ih f₂' (cs.dropWhile isWordChar) hl1 hl2]
        · rw [if_neg hc, if_neg hc]

/-- A stop of the group matcher at a non-`g` character survives appending
anything behind the input. -/
theorem matchGroupsF_stop_stable (g : Char → Bool) :
    ∀ (f : Nat) (l b p' : List Char) (d : Char) (s' : List Char) (f' : Nat),
      l.length ≤ f → matchGroupsF g f l = (p', d :: s') → g d = false →
      (l ++ b).length ≤ f' →
      matchGroupsF g f' (l ++ b) = (p', d :: (s' ++ b)) := by
  intro f
  induction f with
  | zero =>
    intro l b p' d s' f' h1 h2 _ _
    have hl : l = [] := List.length_eq_zero.mp (Nat.le_zero.mp h1)
    subst hl
    rw [matchGroupsF_nil] at h2
    exact absurd (congrArg Prod.snd h2) (by simp)
  | succ f ih =>
    intro l b p' d s' f' h1 h2 hd h3
    cases l with
    | nil =>
      rw [matchGroupsF_nil] at h2
      exact absurd (congrArg Prod.snd h2) (by simp)
    | cons c cs =>
      cases f' with
      | zero => simp at h3
      | succ f'' =>
        rw [List.cons_append, matchGroupsF_cons]
        rw [matchGroupsF_cons] at h2
        by_cases hc : (g c && startsWordChar cs) = true
        · rw [if_pos hc] at h2
          have hq2 : (matchGroupsF g f (cs.dropWhile isWordChar)).2 = d :: s' :=
            congrArg Prod.snd h2
          have hq1 : c :: (cs.takeWhile isWordChar ++
              (matchGroupsF g f (cs.dropWhile isWordChar)).1) = p' :=
            congrArg Prod.fst h2
          have hcs_ne : cs ≠ [] := by
            intro h0
            subst h0
            simp [startsWordChar] at hc
          have hdne : cs.dropWhile isWordChar ≠ [] := by
            intro h0
            rw [h0, matchGroupsF_nil] at hq2
            exact absurd hq2 (by simp)
          have hsw : startsWordChar (cs ++ b) = startsWordChar cs := by
            cases cs with
            | nil => exact absurd rfl hcs_ne
            | cons x xs => rfl
          rw [if_pos (by rw [hsw]; exact hc)]
          have htd := takeWhile_append_of_drop_ne isWordChar cs b hdne
          rw [htd.1, htd.2]
          have hdw : (cs.dropWhile isWordChar).length ≤ cs.length := by
            have := takeWhile_dropWhile_length isWordChar cs
            omega
          have hr_len : (cs.dropWhile isWordChar).length ≤ f := by
            simp only [List.length_cons] at h1
            omega
          have hrb_len : ((cs.dropWhile isWordChar) ++ b).length ≤ f'' := by
            simp only [List.length_cons, List.length_append] at h3 ⊢
            omega
          have hq : matchGroupsF g f (cs.dropWhile isWordChar) =
              ((matchGroupsF g f (cs.dropWhile isWordChar)).1, d :: s') := by
            rw [← hq2]
          rw [ih (cs.dropWhile isWordChar) b
            (matchGroupsF g f (cs.dropWhile isWordChar)).1 d s' f'' hr_len hq hd hrb_len]
          rw [← hq1]
        · rw [if_neg hc] at h2
          have h2a : ([] : List Char) = p' := congrArg Prod.fst h2
          have h2b : c :: cs = d :: s' := congrArg Prod.snd h2
          have hcd : c = d := (List.cons.injEq _ _ _ _ ▸ h2b).1
          have hcs : cs = s' := (List.cons.injEq _ _ _ _ ▸ h2b).2
          subst hcd
          subst hcs
          rw [if_neg (by simp [hd]), ← h2a]


/-- A full consumption by the group matcher survives appending a
continuation that neither starts a group nor starts with a word
character. -/
theorem matchGroupsF_full_stable (g : Char → Bool) :
    ∀ (f : Nat) (l b p' : List Char) (f' : Nat),
      l.length ≤ f → matchGroupsF g f l = (p', []) →
      groupStart g b = false → startsWordChar b = false →
      (l ++ b).length ≤ f' →
      matchGroupsF g f' (l ++ b) = (p', b) := by
  intro f
  induction f with
  | zero =>
    intro l b p' f' h1 h2 hb1 _ _
    have hl : l = [] := List.length_eq_zero.mp (Nat.le_zero.mp h1)
    subst hl
    rw [matchGroupsF_nil] at h2
    have hp : ([] : List Char) = p' := congrArg Prod.fst h2
    rw [List.nil_append, matchGroupsF_no_group g f' b hb1, ← hp]
  | succ f ih =>
    intro l b p' f' h1 h2 hb1 hb2 h3
    cases l with
    | nil =>
      rw [matchGroupsF_nil] at h2
      have hp : ([] : List Char) = p' := congrArg Prod.fst h2
      rw [List.nil_append, matchGroupsF_no_group g f' b hb1, ← hp]
    | cons c cs =>
      cases f' with
      | zero => simp at h3
      | succ f'' =>
        rw [List.cons_append, matchGroupsF_cons]
        rw [matchGroupsF_cons] at h2
        by_cases hc : (g c && startsWordChar cs) = true
        · rw [if_pos hc] at h2
          have hq2 : (matchGroupsF g f (cs.dropWhile isWordChar)).2 = [] :=
            congrArg Prod.snd h2
          have hq1 : c :: (cs.takeWhile isWordChar ++
              (matchGroupsF g f (cs.dropWhile isWordChar)).1) = p' :=
            congrArg Prod.fst h2
          have hcs_ne : cs ≠ [] := by
            intro h0
            subst h0
            simp [startsWordChar] at hc
          have hsw : startsWordChar (cs ++ b) = startsWordChar cs := by
            cases cs with
            | nil => exact absurd rfl hcs_ne
            | cons x xs => rfl
          rw [if_pos (by rw [hsw]; exact hc)]
          have hdw : (cs.dropWhile isWordChar).length ≤ cs.length := by
            have := takeWhile_dropWhile_length isWordChar cs
            omega
          have hr_len : (cs.dropWhile isWordChar).length ≤ f := by
            simp only [List.length_cons] at h1
            omega
          have hrb_len : ((cs.dropWhile isWordChar) ++ b).length ≤ f'' := by
            simp only [List.length_cons, List.length_append] at h3 ⊢
            omega
          by_cases hr0 : cs.dropWhile isWordChar = []
          · have hall : ∀ d ∈ cs, isWordChar d = true :=
              List.dropWhile_eq_nil_iff.mp hr0
            have htake : cs.takeWhile isWordChar = cs := by
              have hsplit := List.takeWhile_append_dropWhile isWordChar cs
              rw [hr0, List.append_nil] at hsplit
              exact hsplit
            have htd := takeWhile_append_all isWordChar cs b hall
              (by rw [← startsWordChar_eq_headSat]; exact hb2)
            rw [htd.1, htd.2]
            rw [matchGroupsF_no_group g f'' b hb1]
            rw [← hq1, hr0, matchGroupsF_nil, htake]
          · have htd := takeWhile_append_of_drop_ne isWordChar cs b hr0
            rw [htd.1, htd.2]
            have hq : matchGroupsF g f (cs.dropWhile isWordChar) =
                ((matchGroupsF g f (cs.dropWhile isWordChar)).1, []) := by
              rw [← hq2]
            rw [ih (cs.dropWhile isWordChar) b
              (matchGroupsF g f (cs.dropWhile isWordChar)).1 f'' hr_len hq hb1 hb2 hrb_len]
            rw [← hq1]
        · rw [if_neg hc] at h2
          exact absurd (congrArg Prod.snd h2) (by simp)

/-- The two components of the word matcher concatenate back to the input. -/
theorem matchWordCore_append_eq (l : List Char) :
    (matchWordCore l).1 ++ (matchWordCore l).2 = l := by
  unfold matchWordCore
  simp only [List.append_assoc]
  rw [matchGroupsF_append_eq, matchGroupsF_append_eq, List.takeWhile_append_dropWhile]

/-- The word matcher consumes at least its leading word character. -/
theorem matchWordCore_fst_ne (c : Char) (cs : List Char) (h : isWordChar c = true) :
    (matchWordCore (c :: cs)).1 ≠ [] := by
  unfold matchWordCore
  simp only [List.takeWhile_cons, h, if_true]
  simp

/-- Zeta-reduced unfolding equation of the word matcher. -/
theorem matchWordCore_eq (cs : List Char) :
    matchWordCore cs =
      (cs.takeWhile isWordChar ++
        (matchGroupsF isApos (cs.dropWhile isWordChar).length (cs.dropWhile isWordChar)).1 ++
        (matchGroupsF isDot
          ((matchGroupsF isApos (cs.dropWhile isWordChar).length
            (cs.dropWhile isWordChar)).2).length
          ((matchGroupsF isApos (cs.dropWhile isWordChar).length
            (cs.dropWhile isWordChar)).2)).1,
       (matchGroupsF isDot
          ((matchGroupsF isApos (cs.dropWhile isWordChar).length
            (cs.dropWhile isWordChar)).2).length
          ((matchGroupsF isApos (cs.dropWhile isWordChar).length
            (cs.dropWhile isWordChar)).2)).2) := rfl

/-- Maximal-munch localization for the word alternative: a word-like run `w`
(the word matcher consumes exactly `w` from `w` itself), followed by a
continuation that does not extend the run (no leading word character, no
apostrophe group, no dot group), is matched exactly, leaving the
continuation untouched. -/
theorem matchWordCore_extend (w rest : List Char)
    (hcore : matchWordCore w = (w, []))
    (h1 : startsWordChar rest = false)
    (h2 : groupStart isApos rest = false)
    (h3 : groupStart isDot rest = false) :
    matchWordCore (w ++ rest) = (w, rest) := by
  have hcore1 : (matchWordCore w).1 = w := by rw [hcore]
  have hcore2 : (matchWordCore w).2 = [] := by rw [hcore]
  simp only [matchWordCore_eq] at hcore1 hcore2 ⊢
  by_cases hr0 : w.dropWhile isWordChar = []
  · -- the whole run is one word-character block
    have hall : ∀ d ∈ w, isWordChar d = true := List.dropWhile_eq_nil_iff.mp hr0
    have htd := takeWhile_append_all isWordChar w rest hall
      (by rw [← startsWordChar_eq_headSat]; exact h1)
    have e2 : matchGroupsF isApos rest.length rest = ([], rest) :=
      matchGroupsF_no_group isApos rest.length rest h2
    have e3 : matchGroupsF isDot rest.length rest = ([], rest) :=
      matchGroupsF_no_group isDot rest.length rest h3
    rw [htd.1, htd.2, e2]
    simp only [e3]
    simp
  · -- the run continues after the first word block
    have htd := takeWhile_append_of_drop_ne isWordChar w rest hr0
    cases hqa2 : (matchGroupsF isApos (w.dropWhile isWordChar).length
        (w.dropWhile isWordChar)).2 with
    | nil =>
      -- the apostrophe groups consumed the whole remainder of the run
      have hqa : matchGroupsF isApos (w.dropWhile isWordChar).length
          (w.dropWhile isWordChar) =
          ((matchGroupsF isApos (w.dropWhile isWordChar).length
            (w.dropWhile isWordChar)).1, []) := by
        rw [← hqa2]
      have e2 := matchGroupsF_full_stable isApos (w.dropWhile isWordChar).length
        (w.dropWhile isWordChar) rest
        (matchGroupsF isApos (w.dropWhile isWordChar).length (w.dropWhile isWordChar)).1
        ((w.dropWhile isWordChar) ++ rest).length (le_refl _) hqa h2 h1 (le_refl _)
      have e3 : matchGroupsF isDot rest.length rest = ([], rest) :=
        matchGroupsF_no_group isDot rest.length rest h3
      rw [hqa2, matchGroupsF_nil] at hcore1
      simp only [List.append_nil] at hcore1
      rw [htd.1, htd.2, e2]
      simp only [e3]
      simp [hcore1]
    | cons d s' =>
      -- the apostrophe groups stopped at the head of the dot groups
      rw [hqa2] at hcore1 hcore2
      have hgs : groupStart isDot (d :: s') = true := by
        by_contra hgs
        rw [matchGroupsF_no_group isDot _ _ (Bool.not_eq_true _ ▸ hgs)] at hcore2
        exact absurd hcore2 (by simp)
      have hd_dot : isDot d = true := by
        have hand : (isDot d && startsWordChar s') = true := hgs
        exact (Bool.and_eq_true_iff.mp hand).1
      have hd_apos : isApos d = false := by
        have hdd : d = '.' := by
          unfold isDot at hd_dot
          exact of_decide_eq_true hd_dot
        rw [hdd]
        rfl
      have hqa : matchGroupsF isApos (w.dropWhile isWordChar).length
          (w.dropWhile isWordChar) =
          ((matchGroupsF isApos (w.dropWhile isWordChar).length
            (w.dropWhile isWordChar)).1, d :: s') := by
        rw [← hqa2]
      have e2 := matchGroupsF_stop_stable isApos (w.dropWhile isWordChar).length
        (w.dropWhile isWordChar) rest
        (matchGroupsF isApos (w.dropWhile isWordChar).length (w.dropWhile isWordChar)).1
        d s' ((w.dropWhile isWordChar) ++ rest).length (le_refl _) hqa hd_apos (le_refl _)
      have hdot : matchGroupsF isDot (d :: s').length (d :: s') =
          ((matchGroupsF isDot (d :: s').length (d :: s')).1, []) := by
        rw [← hcore2]
      have e3 := matchGroupsF_full_stable isDot (d :: s').length (d :: s') rest
        (matchGroupsF isDot (d :: s').length (d :: s')).1
        ((d :: s') ++ rest).length (le_refl _) hdot h3 h1 (le_refl _)
      have e3' : matchGroupsF isDot (d :: (s' ++ rest)).length (d :: (s' ++ rest)) =
          ((matchGroupsF isDot (d :: s').length (d :: s')).1, rest) := e3
      rw [htd.1, htd.2, e2]
      simp only [e3']
      simp only [Prod.mk.injEq, and_true, List.append_assoc]
      rw [← List.append_assoc]
      simpa using hcore1

/-- A prefix test splits the list at the prefix length. -/
theorem isPrefixOf_eq_append (l₁ l₂ : List Char) (h : l₁.isPrefixOf l₂ = true) :
    l₁ ++ l₂.drop l₁.length = l₂ :=
  List.prefix_iff_eq_append.mp (List.isPrefixOf_iff_prefix.mp h)

/-- Zeta-reduced unfolding equation of the http alternative. -/
theorem matchHttp_eq (cs : List Char) :
    matchHttp cs =
      if "https://".toList.isPrefixOf cs then
        (if (nonSpaceRun (cs.drop 8)).1 = [] then none
         else some ("https://".toList ++ (nonSpaceRun (cs.drop 8)).1,
            (nonSpaceRun (cs.drop 8)).2))
      else if "http://".toList.isPrefixOf cs then
        (if (nonSpaceRun (cs.drop 7)).1 = [] then none
         else some ("http://".toList ++ (nonSpaceRun (cs.drop 7)).1,
            (nonSpaceRun (cs.drop 7)).2))
      else none := rfl

/-- Zeta-reduced unfolding equation of the www alternative. -/
theorem matchWww_eq (cs : List Char) :
    matchWww cs =
      if "www.".toList.isPrefixOf cs then
        (if (nonSpaceRun (cs.drop 4)).1 = [] then none
         else some ("www.".toList ++ (nonSpaceRun (cs.drop 4)).1,
            (nonSpaceRun (cs.drop 4)).2))
      else none := rfl

/-- The two components of the non-space run concatenate back to the
input. -/
theorem nonSpaceRun_append_eq (l : List Char) :
    (nonSpaceRun l).1 ++ (nonSpaceRun l).2 = l :=
  List.takeWhile_append_dropWhile _ l

/-- A successful http match is a non-empty match that concatenates with the
rest back to the input. -/
theorem matchHttp_split (cs : List Char) (mr : List Char × List Char)
    (h : matchHttp cs = some mr) : mr.1 ++ mr.2 = cs ∧ mr.1 ≠ [] := by
  rw [matchHttp_eq] at h
  by_cases h8 : "https://".toList.isPrefixOf cs
  · rw [if_pos h8] at h
    by_cases hq : (nonSpaceRun (cs.drop 8)).1 = []
    · rw [if_pos hq] at h
      exact absurd h (by simp)
    · rw [if_neg hq] at h
      have hmr := (Option.some.injEq _ _ ▸ h).symm
      constructor
      · rw [hmr]
        simp only [List.append_assoc]
        rw [nonSpaceRun_append_eq]
        exact isPrefixOf_eq_append _ cs h8
      · rw [hmr]
        simp
  · rw [if_neg h8] at h
    by_cases h7 : "http://".toList.isPrefixOf cs
    · rw [if_pos h7] at h
      by_cases hq : (nonSpaceRun (cs.drop 7)).1 = []
      · rw [if_pos hq] at h
        exact absurd h (by simp)
      · rw [if_neg hq] at h
        have hmr := (Option.some.injEq _ _ ▸ h).symm
        constructor
        · rw [hmr]
          simp only [List.append_assoc]
          rw [nonSpaceRun_append_eq]
          exact isPrefixOf_eq_append _ cs h7
        · rw [hmr]
          simp
    · rw [if_neg h7] at h
      exact absurd h (by simp)

/-- A successful www match is a non-empty match that concatenates with the
rest back to the input. -/
theorem matchWww_split (cs : List Char) (mr : List Char × List Char)
    (h : matchWww cs = some mr) : mr.1 ++ mr.2 = cs ∧ mr.1 ≠ [] := by
  rw [matchWww_eq] at h
  by_cases h4 : "www.".toList.isPrefixOf cs
  · rw [if_pos h4] at h
    by_cases hq : (nonSpaceRun (cs.drop 4)).1 = []
    · rw [if_pos hq] at h
      exact absurd h (by simp)
    · rw [if_neg hq] at h
      have hmr := (Option.some.injEq _ _ ▸ h).symm
      constructor
      · rw [hmr]
        simp only [List.append_assoc]
        rw [nonSpaceRun_append_eq]
        exact isPrefixOf_eq_append _ cs h4
      · rw [hmr]
        simp
  · rw [if_neg h4] at h
    exact absurd h (by simp)

/-- Unfolding equation of the scanner in the step case. -/
theorem scanAux_cons (fuel : Nat) (c : Char) (cs : List Char) :
    scanAux (fuel + 1) (c :: cs) =
      if isSpaceChar c then scanAux fuel cs
      else
        match matchHttp (c :: cs) with
        | some mr => mr.1 :: scanAux fuel mr.2
        | none =>
          match matchWww (c :: cs) with
          | some mr => mr.1 :: scanAux fuel mr.2
          | none =>
            if isWordChar c then
              (matchWordCore (c :: cs)).1 :: scanAux fuel (matchWordCore (c :: cs)).2
            else
              (punctRun (c :: cs)).1 :: scanAux fuel (punctRun (c :: cs)).2 := rfl

/-- The scanner does not depend on the fuel as long as the fuel covers the
input length. -/
theorem scanAux_congr :
    ∀ (f₁ f₂ : Nat) (cs : List Char), cs.length ≤ f₁ → cs.length ≤ f₂ →
      scanAux f₁ cs = scanAux f₂ cs := by
  intro f₁
  induction f₁ with
  | zero =>
    intro f₂ cs h1 _
    have hl : cs = [] := List.length_eq_zero.mp (Nat.le_zero.mp h1)
    subst hl
    cases f₂ <;> rfl
  | succ f ih =>
    intro f₂ cs h1 h2
    cases cs with
    | nil => cases f₂ <;> rfl
    | cons c cs' =>
      cases f₂ with
      | zero => simp at h2
      | succ f₂' =>
        have hlen1 : cs'.length ≤ f := by
          simp only [List.length_cons] at h1
          omega
        have hlen2 : cs'.length ≤ f₂' := by
          simp only [List.length_cons] at h2
          omega
        rw [scanAux_cons, scanAux_cons]
        by_cases hsp : isSpaceChar c = true
        · rw [if_pos hsp, if_pos hsp]
          exact ih f₂' cs' hlen1 hlen2
        · rw [if_neg hsp, if_neg hsp]
          cases hh : matchHttp (c :: cs') with
          | some mr =>
            simp only []
            have hs := matchHttp_split _ mr hh
            have hr : mr.2.length ≤ cs'.length := by
              have := congrArg List.length hs.1
              simp only [List.length_append, List.length_cons] at this
              cases hm : mr.1 with
              | nil => exact absurd hm hs.2
              | cons x xs =>
                rw [hm] at this
                simp only [List.length_cons] at this
                omega
            rw [ih f₂' mr.2 (le_trans hr hlen1) (le_trans hr hlen2)]
          | none =>
            simp only []
            cases hw : matchWww (c :: cs') with
            | some mr =>
              simp only []
              have hs := matchWww_split _ mr hw
              have hr : mr.2.length ≤ cs'.length := by
                have := congrArg List.length hs.1
                simp only [List.length_append, List.length_cons] at this
                cases hm : mr.1 with
                | nil => exact absurd hm hs.2
                | cons x xs =>
                  rw [hm] at this
                  simp only [List.length_cons] at this
                  omega
              rw [ih f₂' mr.2 (le_trans hr hlen1) (le_trans hr hlen2)]
            | none =>
              simp only []
              by_cases hwc : isWordChar c = true
              · rw [if_pos hwc, if_pos hwc]
                have hsplit := matchWordCore_append_eq (c :: cs')
                have hne := matchWordCore_fst_ne c cs' hwc
                have hr : (matchWordCore (c :: cs')).2.length ≤ cs'.length := by
                  have := congrArg List.length hsplit
                  simp only [List.length_append, List.length_cons] at this
                  cases hm : (matchWordCore (c :: cs')).1 with
                  | nil => exact absurd hm hne
                  | cons x xs =>
                    rw [hm] at this
                    simp only [List.length_cons] at this
                    omega
                rw [ih f₂' (matchWordCore (c :: cs')).2 (le_trans hr hlen1)
                  (le_trans hr hlen2)]
              · rw [if_neg hwc, if_neg hwc]
                have hpr : (punctRun (c :: cs')).2.length ≤ cs'.length := by
                  have hsplit := takeWhile_dropWhile_length
                    (fun d => !isWordChar d && !isSpaceChar d) (c :: cs')
                  have hne : (punctRun (c :: cs')).1 ≠ [] := by
                    unfold punctRun
                    rw [List.takeWhile_cons, if_pos (by simp [hwc, hsp])]
                    simp
                  unfold punctRun at hne ⊢
                  cases hm : List.takeWhile (fun d => !isWordChar d && !isSpaceChar d)
                      (c :: cs') with
                  | nil => exact absurd hm hne
                  | cons x xs =>
                    rw [hm] at hsplit
                    simp only [List.length_cons] at hsplit ⊢
                    omega
                rw [ih f₂' (punctRun (c :: cs')).2 (le_trans hpr hlen1)
                  (le_trans hpr hlen2)]

/-- A word character (letter or digit) is not whitespace. -/
theorem wordChar_not_space (c : Char) (h : isWordChar c = true) :
    isSpaceChar c = false := by
  cases hsp : isSpaceChar c with
  | false => rfl
  | true =>
    exfalso
    have hc : c = ' ' ∨ c = '\t' ∨ c = '\r' ∨ c = '\n' := by
      simp only [isSpaceChar, Char.isWhitespace, Bool.or_eq_true, decide_eq_true_eq,
        or_assoc] at hsp
      exact hsp
    rcases hc with rfl | rfl | rfl | rfl <;> exact absurd h (by decide)

/-- C9: a word-like run of letters/digits joined by internal apostrophes or
internal single dots — precisely, a `w` that the word matcher consumes in
full, at a position where neither URL alternative applies — followed by any
continuation that does not extend the run, is produced by the scanner as one
single match, and that match starts exactly one token of the output; it is
never split into multiple tokens.  The closed conjuncts show this end to end
on "don't" and "e.g.". -/
theorem c9_word_run_one_token (w rest : List Char)
    (hw : startsWordChar w = true)
    (hcore : matchWordCore w = (w, []))
    (h1 : startsWordChar rest = false)
    (h2 : groupStart isApos rest = false)
    (h3 : groupStart isDot rest = false)
    (hu1 : matchHttp (w ++ rest) = none)
    (hu2 : matchWww (w ++ rest) = none) :
    scanMatches (w ++ rest) = w :: scanMatches rest ∧
    isWordLikeTok w = true ∧
    (∀ acc, stepTok acc w = ⟨w, false⟩ :: acc) ∧
    tokenize "I don't know".toList =
      [⟨"I".toList, false⟩, ⟨"don't".toList, false⟩, ⟨"know".toList, false⟩] ∧
    tokenize "See e.g. this".toList =
      [⟨"See".toList, false⟩, ⟨"e.g.".toList, false⟩, ⟨"this".toList, false⟩] := by
  have hwl : isWordLikeTok w = true := by
    unfold isWordLikeTok
    rw [hw]
    rfl
  refine ⟨?_, hwl, ?_, by decide, by decide⟩
  · cases w with
    | nil => exact absurd hw (by decide)
    | cons c w' =>
      have hwc : isWordChar c = true := hw
      have hsp : isSpaceChar c = false := wordChar_not_space c hwc
      unfold scanMatches
      rw [List.cons_append]
      rw [show (c :: (w' ++ rest)).length = (w' ++ rest).length + 1 from rfl]
      rw [scanAux_cons, if_neg (by rw [hsp]; exact Bool.false_ne_true)]
      have hu1' : matchHttp (c :: (w' ++ rest)) = none := hu1
      have hu2' : matchWww (c :: (w' ++ rest)) = none := hu2
      rw [hu1']
      simp only []
      rw [hu2']
      simp only []
      rw [if_pos hwc]
      have hx : matchWordCore (c :: (w' ++ rest)) = (c :: w', rest) :=
        matchWordCore_extend (c :: w') rest hcore h1 h2 h3
      rw [hx]
      simp only []
      rw [scanAux_congr (w' ++ rest).length rest.length rest
        (by simp [List.length_append]) (le_refl _)]
  · intro acc
    unfold stepTok
    rw [if_pos hwl]

/-- C9 witness: the theorem applied to the run "don't" followed by a
punctuation-and-space continuation. -/
theorem c9_word_run_one_token_witness :
    scanMatches ("don't".toList ++ ", ok".toList) =
      "don't".toList :: scanMatches ", ok".toList ∧
    isWordLikeTok "don't".toList = true ∧
    stepTok [] "don't".toList = [⟨"don't".toList, false⟩] :=
  ⟨(c9_word_run_one_token "don't".toList ", ok".toList (by decide) (by decide)
      (by decide) (by decide) (by decide) (by decide) (by decide)).1,
   (c9_word_run_one_token "don't".toList ", ok".toList (by decide) (by decide)
      (by decide) (by decide) (by decide) (by decide) (by decide)).2.1,
   (c9_word_run_one_token "don't".toList ", ok".toList (by decide) (by decide)
      (by decide) (by decide) (by decide) (by decide) (by decide)).2.2.1 []⟩

/-- A comma/semicolon/colon-ending word is not sentence-ending: the two
regex tests look at the same last character and their character sets are
disjoint. -/
theorem endsComma_not_endsSentence (w : List Char) (h : endsComma w = true) :
    endsSentence w = false := by
  unfold endsComma at h
  unfold endsSentence
  cases hl : w.getLast? with
  | none => rfl
  | some c =>
    rw [hl] at h
    have h1 : c = ',' ∨ c = ';' ∨ c = ':' := by
      simpa [Bool.or_eq_true, decide_eq_true_eq, or_assoc] using h
    rcases h1 with rfl | rfl | rfl <;> decide

/-- CRLF replacement maps whitespace-only text to whitespace-only text. -/
theorem allWs_replaceCRLF (s : List Char) (h : ∀ c ∈ s, isSpaceChar c = true) :
    ∀ c ∈ replaceCRLF s, isSpaceChar c = true := by
  induction s using replaceCRLF.induct with
  | case1 => intro c hc; simp [replaceCRLF] at hc
  | case2 cs ih =>
    intro c hc
    rw [replaceCRLF] at hc
    rcases List.mem_cons.mp hc with rfl | hc
    · decide
    · exact ih (fun d hd => h d (by simp [hd])) c hc
  | case3 a cs hne ih =>
    intro c hc
    rw [replaceCRLF] at hc
    · rcases List.mem_cons.mp hc with rfl | hc
      · exact h c (by simp)
      · exact ih (fun d hd => h d (by simp [hd])) c hc
    · exact hne

/-- Carriage-return replacement maps whitespace-only text to whitespace-only
text. -/
theorem allWs_replaceCR (s : List Char) (h : ∀ c ∈ s, isSpaceChar c = true) :
    ∀ c ∈ replaceCR s, isSpaceChar c = true := by
  intro c hc
  obtain ⟨a, ha, rfl⟩ := List.mem_map.mp hc
  by_cases hr : a = '\r'
  · rw [if_pos hr]; decide
  · rw [if_neg hr]; exact h a ha

/-- Line-break collapsing maps whitespace-only text to whitespace-only
text. -/
theorem allWs_collapseNL (s : List Char) :
    ∀ run, (∀ c ∈ s, isSpaceChar c = true) →
      ∀ c ∈ collapseNLAux run s, isSpaceChar c = true := by
  induction s with
  | nil => intro run _ c hc; simp [collapseNLAux] at hc
  | cons a cs ih =>
    intro run h c hc
    rw [collapseNLAux] at hc
    by_cases ha : a = '\n'
    · rw [if_pos ha] at hc
      by_cases hrun : run < 2
      · rw [if_pos hrun] at hc
        rcases List.mem_cons.mp hc with rfl | hc
        · decide
        · exact ih (run + 1) (fun d hd => h d (by simp [hd])) c hc
      · rw [if_neg hrun] at hc
        exact ih run (fun d hd => h d (by simp [hd])) c hc
    · rw [if_neg ha] at hc
      rcases List.mem_cons.mp hc with rfl | hc
      · exact h c (by simp)
      · exact ih 0 (fun d hd => h d (by simp [hd])) c hc

/-- The full normalization maps whitespace-only text to whitespace-only
text. -/
theorem allWs_normalizeText (s : List Char) (h : ∀ c ∈ s, isSpaceChar c = true) :
    ∀ c ∈ normalizeText s, isSpaceChar c = true :=
  allWs_collapseNL _ 0 (allWs_replaceCR _ (allWs_replaceCRLF s h))

/-- Every paragraph piece produced from whitespace-only text is
whitespace-only. -/
theorem allWs_splitParasAux (s : List Char) :
    ∀ cur mode, (∀ c ∈ cur, isSpaceChar c = true) → (∀ c ∈ s, isSpaceChar c = true) →
      ∀ p ∈ splitParasAux cur mode s, ∀ c ∈ p, isSpaceChar c = true := by
  induction s with
  | nil =>
    intro cur mode hcur _ p hp c hc
    rw [splitParasAux] at hp
    by_cases hm : mode = 1
    · rw [if_pos hm] at hp
      rcases List.mem_singleton.mp hp with rfl
      rcases List.mem_reverse.mp hc with hc
      rcases List.mem_cons.mp hc with rfl | hc
      · decide
      · exact hcur c hc
    · rw [if_neg hm] at hp
      rcases List.mem_singleton.mp hp with rfl
      exact hcur c (List.mem_reverse.mp hc)
  | cons a cs ih =>
    intro cur mode hcur hs p hp c hc
    rw [splitParasAux] at hp
    have has : isSpaceChar a = true := hs a (by simp)
    have hcs : ∀ c ∈ cs, isSpaceChar c = true := fun d hd => hs d (by simp [hd])
    by_cases ha : a = '\n'
    · rw [if_pos ha] at hp
      by_cases hm0 : mode = 0
      · rw [if_pos hm0] at hp
        exact ih cur 1 hcur hcs p hp c hc
      · rw [if_neg hm0] at hp
        by_cases hm1 : mode = 1
        · rw [if_pos hm1] at hp
          rcases List.mem_cons.mp hp with rfl | hp
          · exact hcur c (List.mem_reverse.mp hc)
          · exact ih [] 2 (by simp) hcs p hp c hc
        · rw [if_neg hm1] at hp
          exact ih [] 2 (by simp) hcs p hp c hc
    · rw [if_neg ha] at hp
      by_cases hm1 : mode = 1
      · rw [if_pos hm1] at hp
        refine ih (a :: '\n' :: cur) 0 ?_ hcs p hp c hc
        intro d hd
        rcases List.mem_cons.mp hd with rfl | hd
        · exact has
        · rcases List.mem_cons.mp hd with rfl | hd
          · decide
          · exact hcur d hd
      · rw [if_neg hm1] at hp
        refine ih (a :: cur) 0 ?_ hcs p hp c hc
        intro d hd
        rcases List.mem_cons.mp hd with rfl | hd
        · exact has
        · exact hcur d hd

/-- The trim of a whitespace-only piece is empty. -/
theorem trim_allWs (s : List Char) (h : ∀ c ∈ s, isSpaceChar c = true) :
    trimChars s = [] := by
  have h1 : s.dropWhile isSpaceChar = [] := List.dropWhile_eq_nil_iff.mpr h
  simp [trimChars, h1]

/-- The paragraph loop skips every paragraph whose trim is empty. -/
theorem processParas_allSkipped (paras : List (List Char)) :
    ∀ acc, (∀ p ∈ paras, trimChars p = []) → processParas paras acc = acc := by
  induction paras with
  | nil => intro acc _; rfl
  | cons p rest ih =>
    intro acc h
    rw [processParas, if_pos (h p (by simp))]
    exact ih acc (fun q hq => h q (by simp [hq]))

/-- Whitespace-only input produces no token at all in the shared scan. -/
theorem tokenizeCore_allWs (s : List Char) (h : ∀ c ∈ s, isSpaceChar c = true) :
    tokenizeCore s = [] := by
  unfold tokenizeCore
  rw [processParas_allSkipped (splitParas (normalizeText s)) []]
  · rfl
  · intro p hp
    exact trim_allWs p
      (allWs_splitParasAux (normalizeText s) [] 0 (by simp) (allWs_normalizeText s h) p hp)

/-- C10: for empty or whitespace-only page text, the PDF loader's
`tokenizePage` returns the empty token sequence while the top-level
`tokenize` returns the single whitespace token; consequently a blank page
contributes zero tokens to the aggregated sequence. -/
theorem c10_blank_page_zero_tokens (s : List Char) (h : ∀ c ∈ s, isSpaceChar c = true) :
    tokenizePage s = [] ∧
    tokenize s = [⟨[' '], false⟩] ∧
    allWordsOf [(1, tokenizePage s)] = [] := by
  have hc := tokenizeCore_allWs s h
  refine ⟨hc, ?_, ?_⟩
  · simp [tokenize, hc]
  · simp [tokenizePage, hc]
    rfl

/-- C10 witness: the theorem applied to a concrete whitespace-only page
text. -/
theorem c10_blank_page_zero_tokens_witness :
    tokenizePage " \n ".toList = [] ∧
    tokenize " \n ".toList = [⟨[' '], false⟩] ∧
    allWordsOf [(1, tokenizePage " \n ".toList)] = [] :=
  c10_blank_page_zero_tokens " \n ".toList (by decide)

/-- Inserting an element bounded below by `n` into a sorted-list-with-`n`-last
keeps `n` last. -/
theorem orderedInsert_append_last (a n : Nat) (h : a ≤ n) :
    ∀ s : List Nat,
      List.orderedInsert (· ≤ ·) a (s ++ [n]) = List.orderedInsert (· ≤ ·) a s ++ [n] := by
  intro s
  induction s with
  | nil => simp [List.orderedInsert, h]
  | cons b s ih =>
    by_cases hab : a ≤ b
    · simp [List.orderedInsert, hab]
    · simp [List.orderedInsert, hab, ih]

/-- Sorting a list whose every element is below `n`, with `n` appended, sorts
the list and keeps `n` last. -/
theorem insertionSort_append_ub (l : List Nat) (n : Nat) (h : ∀ m ∈ l, m ≤ n) :
    List.insertionSort (· ≤ ·) (l ++ [n]) = List.insertionSort (· ≤ ·) l ++ [n] := by
  induction l with
  | nil => simp [List.insertionSort, List.orderedInsert]
  | cons a l ih =>
    have ha : a ≤ n := h a (by simp)
    simp only [List.cons_append, List.insertionSort, List.append_eq]
    rw [ih (fun m hm => h m (by simp [hm]))]
    exact orderedInsert_append_last a n ha _

/-- Lookup in a list with one binding appended: a different key is looked up
in the prefix, the appended key is found when absent from the prefix. -/
theorem lookup_append_single {β : Type} (m n : Nat) (ws : β) :
    ∀ l : List (Nat × β),
      (m ≠ n → List.lookup m (l ++ [(n, ws)]) = List.lookup m l) ∧
      (n ∉ l.map Prod.fst → List.lookup n (l ++ [(n, ws)]) = some ws) := by
  intro l
  induction l with
  | nil =>
    refine ⟨fun hne => ?_, fun _ => ?_⟩
    · simp [List.lookup, beq_eq_false_iff_ne.mpr hne]
    · simp [List.lookup]
  | cons kv l ih =>
    refine ⟨fun hne => ?_, fun hn => ?_⟩
    · by_cases hk : m = kv.1
      · simp [List.lookup, hk]
      · simp only [List.cons_append, List.lookup, beq_eq_false_iff_ne.mpr hk,
          Bool.false_eq_true]
        exact ih.1 hne
    · have hk : n ≠ kv.1 := by
        intro hq
        exact hn (by simp [hq.symm])
      simp only [List.cons_append, List.lookup, beq_eq_false_iff_ne.mpr hk,
        Bool.false_eq_true]
      exact ih.2 (fun hq => hn (by simp [hq]))

/-- `concatWords` over a fixed ordinal list only depends on the pages'
bindings at those ordinals. -/
theorem concatWords_congr (p1 p2 : List (Nat × List Tok)) (ns : List Nat)
    (h : ∀ m ∈ ns, pageWords p1 m = pageWords p2 m) :
    concatWords p1 ns = concatWords p2 ns := by
  unfold concatWords
  induction ns with
  | nil => rfl
  | cons a ns ih =>
    simp only [List.map_cons, List.flatten_cons]
    rw [h a (by simp), ih (fun m hm => h m (by simp [hm]))]

/-- `concatWords` unfolds one ordinal at a time. -/
theorem concatWords_cons (pages : List (Nat × List Tok)) (n : Nat) (ns : List Nat) :
    concatWords pages (n :: ns) = pageWords pages n ++ concatWords pages ns := by
  simp [concatWords]

/-- C1, counterexample: with page 2 loaded first, index 0 of the aggregated
sequence holds page 2's first token; when page 1 finishes loading later, the
ordinal-sorted rebuild moves page 1's tokens in front, so index 0 now holds a
different token — a later page load does mutate a previously assigned
index. -/
theorem c1_counterexample :
    (allWordsOf [(2, [⟨['b'], false⟩])])[0]? = some ⟨['b'], false⟩ ∧
    (allWordsOf [(2, [⟨['b'], false⟩]), (1, [⟨['a'], false⟩])])[0]? = some ⟨['a'], false⟩ ∧
    (allWordsOf [(2, [⟨['b'], false⟩])])[0]? ≠
      (allWordsOf [(2, [⟨['b'], false⟩]), (1, [⟨['a'], false⟩])])[0]? := by
  refine ⟨by decide, by decide, by decide⟩

/-- The aggregated length is the sum of the loaded pages' token counts, in
any key order (the sorted ordinal list is a permutation of the keys). -/
theorem allWordsOf_length_sum (pages : List (Nat × List Tok)) :
    (allWordsOf pages).length =
      ((ordinals pages).map (fun m => (pageWords pages m).length)).sum := by
  unfold allWordsOf concatWords
  rw [List.length_flatten, List.map_map]
  exact (List.Perm.map _ (List.perm_insertionSort _ _)).sum_eq

/-- C1, amended: storing a page whose ordinal is not yet loaded — the only
situation `loadPage` can reach its store, in any arrival order — never
shrinks the aggregated sequence: its length grows by exactly the page's
token count.  When moreover the new ordinal exceeds every loaded ordinal
(the order `loadInitialPages` and the background loader actually follow),
the rebuild appends, so every previously assigned index keeps its token.  A
lower-ordinal page arriving later still grows the sequence deterministically
but shifts previously assigned indices (see the counterexample). -/
theorem c1_growth_and_inorder_stability (pages : List (Nat × List Tok)) (n : Nat)
    (ws : List Tok) (hfresh : n ∉ ordinals pages) :
    (allWordsOf (pages ++ [(n, ws)])).length = (allWordsOf pages).length + ws.length ∧
    ((∀ m ∈ ordinals pages, m < n) →
      allWordsOf (pages ++ [(n, ws)]) = allWordsOf pages ++ ws ∧
      (∀ i, i < (allWordsOf pages).length →
        (allWordsOf (pages ++ [(n, ws)]))[i]? = (allWordsOf pages)[i]?)) := by
  have hlast : pageWords (pages ++ [(n, ws)]) n = ws := by
    unfold pageWords
    rw [(lookup_append_single n n ws pages).2 hfresh]
    rfl
  have hold : ∀ m ∈ ordinals pages,
      pageWords (pages ++ [(n, ws)]) m = pageWords pages m := by
    intro m hm
    have hmn : m ≠ n := fun hq => hfresh (hq ▸ hm)
    unfold pageWords
    rw [(lookup_append_single m n ws pages).1 hmn]
  constructor
  · rw [allWordsOf_length_sum, allWordsOf_length_sum]
    have e1 : ordinals (pages ++ [(n, ws)]) = ordinals pages ++ [n] := by
      simp [ordinals]
    rw [e1, List.map_append, List.sum_append]
    simp only [List.map_cons, List.map_nil, List.sum_cons, List.sum_nil, Nat.add_zero]
    rw [hlast]
    rw [List.map_congr_left (fun m hm => by rw [hold m hm])]
  · intro h
    have hsorted : sortedOrdinals (pages ++ [(n, ws)]) = sortedOrdinals pages ++ [n] := by
      unfold sortedOrdinals ordinals
      rw [List.map_append]
      exact insertionSort_append_ub _ n (fun m hm => le_of_lt (h m hm))
    have hcongr : ∀ m ∈ sortedOrdinals pages,
        pageWords (pages ++ [(n, ws)]) m = pageWords pages m := by
      intro m hm
      exact hold m ((List.Perm.mem_iff (List.perm_insertionSort _ _)).mp hm)
    have hmain : allWordsOf (pages ++ [(n, ws)]) = allWordsOf pages ++ ws := by
      unfold allWordsOf
      rw [hsorted]
      unfold concatWords
      rw [List.map_append]
      simp only [List.map_cons, List.map_nil, List.flatten_append, List.flatten_cons,
        List.flatten_nil, List.append_nil]
      rw [hlast]
      have hcw := concatWords_congr (pages ++ [(n, ws)]) pages (sortedOrdinals pages) hcongr
      unfold concatWords at hcw
      rw [hcw]
    refine ⟨hmain, fun i hi => ?_⟩
    rw [hmain]
    exact List.getElem?_append_left hi

/-- C1 witness: the amended theorem applied to an out-of-order load (page 1
after page 2, where only the length conjunct applies) and to an in-order
load (page 2 after page 1, exercising the append and index-stability
conjuncts). -/
theorem c1_growth_and_inorder_stability_witness :
    (allWordsOf ([(2, [⟨['b'], false⟩])] ++ [(1, [⟨['a'], false⟩])])).length =
      (allWordsOf [(2, [⟨['b'], false⟩])]).length + 1 ∧
    allWordsOf ([(1, [⟨['a'], false⟩])] ++ [(2, [⟨['b'], false⟩])]) =
      allWordsOf [(1, [⟨['a'], false⟩])] ++ [⟨['b'], false⟩] ∧
    (allWordsOf ([(1, [⟨['a'], false⟩])] ++ [(2, [⟨['b'], false⟩])]))[0]? =
      (allWordsOf [(1, [⟨['a'], false⟩])])[0]? :=
  ⟨(c1_growth_and_inorder_stability [(2, [⟨['b'], false⟩])] 1 [⟨['a'], false⟩]
      (by decide)).1,
   ((c1_growth_and_inorder_stability [(1, [⟨['a'], false⟩])] 2 [⟨['b'], false⟩]
      (by decide)).2 (by decide)).1,
   ((c1_growth_and_inorder_stability [(1, [⟨['a'], false⟩])] 2 [⟨['b'], false⟩]
      (by decide)).2 (by decide)).2 0 (by decide)⟩

/-- Pairwise relation of a list, read off any two of its members: two members
are equal, or related in one of the two orders. -/
theorem pairwise_mem_trichotomy {α : Type} {S : α → α → Prop} :
    ∀ {l : List α}, l.Pairwise S → ∀ {a b : α}, a ∈ l → b ∈ l →
      a = b ∨ S a b ∨ S b a := by
  intro l
  induction l with
  | nil => intro _ a b ha; simp at ha
  | cons x xs ih =>
    intro hp a b ha hb
    have hhead := List.pairwise_cons.mp hp
    rcases List.mem_cons.mp ha with ha1 | ha2
    · rcases List.mem_cons.mp hb with hb1 | hb2
      · exact Or.inl (ha1.trans hb1.symm)
      · exact Or.inr (Or.inl (by rw [ha1]; exact hhead.1 b hb2))
    · rcases List.mem_cons.mp hb with hb1 | hb2
      · exact Or.inr (Or.inr (by rw [hb1]; exact hhead.1 a ha2))
      · exact ih hhead.2 ha2 hb2

/-- The recorded ranges list one entry per ordinal, in order. -/
theorem rangesAux_pageNums (pages : List (Nat × List Tok)) :
    ∀ (ns : List Nat) (idx : Nat),
      (rangesAux pages ns idx).map WordRange.pageNum = ns := by
  intro ns
  induction ns with
  | nil => intro idx; rfl
  | cons n ns ih => intro idx; simp [rangesAux, ih]

/-- Every recorded range starts at or after the running offset. -/
theorem rangesAux_start_ge (pages : List (Nat × List Tok)) :
    ∀ (ns : List Nat) (idx : Nat), ∀ r ∈ rangesAux pages ns idx, idx ≤ r.start := by
  intro ns
  induction ns with
  | nil => intro idx r hr; simp [rangesAux] at hr
  | cons n ns ih =>
    intro idx r hr
    rw [rangesAux] at hr
    rcases List.mem_cons.mp hr with rfl | hr
    · exact le_refl idx
    · exact le_trans (Nat.le_add_right idx _) (ih (idx + (pageWords pages n).length) r hr)

/-- Over a strictly increasing ordinal list the recorded ranges are strictly
ordered: a range with a smaller page ordinal stops strictly before a range
with a larger ordinal starts. -/
theorem rangesAux_pairwise (pages : List (Nat × List Tok)) :
    ∀ (ns : List Nat) (idx : Nat), ns.Pairwise (· < ·) →
      (rangesAux pages ns idx).Pairwise
        (fun r1 r2 => r1.pageNum < r2.pageNum ∧ r1.stop < (r2.start : Int)) := by
  intro ns
  induction ns with
  | nil => intro idx _; simp [rangesAux]
  | cons n ns ih =>
    intro idx hp
    have hhead := List.pairwise_cons.mp hp
    rw [rangesAux]
    refine List.pairwise_cons.mpr ⟨?_, ih _ hhead.2⟩
    intro r hr
    constructor
    · have : r.pageNum ∈ ns := by
        have := rangesAux_pageNums pages ns (idx + (pageWords pages n).length)
        rw [← this]
        exact List.mem_map_of_mem _ hr
      exact hhead.1 r.pageNum this
    · have hge := rangesAux_start_ge pages ns (idx + (pageWords pages n).length) r hr
      simp only
      omega

/-- Every recorded range is the contiguous slice of the concatenation at its
start, of its page's length, and its stop index is start + length - 1. -/
theorem rangesAux_slice (pages : List (Nat × List Tok)) :
    ∀ (ns : List Nat) (idx : Nat) (pre : List Tok), pre.length = idx →
      ∀ r ∈ rangesAux pages ns idx,
        ((pre ++ concatWords pages ns).drop r.start).take
            (pageWords pages r.pageNum).length = pageWords pages r.pageNum ∧
        r.stop = (r.start : Int) + (pageWords pages r.pageNum).length - 1 := by
  intro ns
  induction ns with
  | nil => intro idx pre _ r hr; simp [rangesAux] at hr
  | cons n ns ih =>
    intro idx pre hpre r hr
    rw [rangesAux] at hr
    rcases List.mem_cons.mp hr with rfl | hr
    · constructor
      · simp only
        rw [concatWords_cons, ← hpre, List.drop_left, List.take_left]
      · simp
    · have hr2 := ih (idx + (pageWords pages n).length) (pre ++ pageWords pages n)
        (by simp [hpre]) r hr
      rw [concatWords_cons, ← List.append_assoc]
      exact hr2

/-- The sorted ordinal list of a nodup page set is strictly increasing. -/
theorem sortedOrdinals_pairwise_lt (pages : List (Nat × List Tok))
    (hnd : (ordinals pages).Nodup) : (sortedOrdinals pages).Pairwise (· < ·) := by
  have hsorted : (sortedOrdinals pages).Pairwise (· ≤ ·) :=
    List.sorted_insertionSort _ _
  have hnd2 : (sortedOrdinals pages).Nodup :=
    (List.Perm.nodup_iff (List.perm_insertionSort _ _)).mpr hnd
  refine (hsorted.and hnd2).imp ?_
  rintro a b ⟨hle, hne⟩
  exact lt_of_le_of_ne hle hne

/-- C2: after every rebuild over a set of loaded pages (distinct ordinals),
the recorded word ranges cover one entry per page in sorted ordinal order;
ranges of pages with smaller ordinals stop strictly before ranges of pages
with larger ordinals start (non-overlap and ordering, in either arrival
order); and every range is exactly the contiguous slice of the aggregated
sequence holding its page's tokens. -/
theorem c2_ranges_sorted_disjoint_contiguous (pages : List (Nat × List Tok))
    (hnd : (ordinals pages).Nodup) :
    (wordRangesOf pages).map WordRange.pageNum = sortedOrdinals pages ∧
    (∀ r1 ∈ wordRangesOf pages, ∀ r2 ∈ wordRangesOf pages,
      r1.pageNum < r2.pageNum → r1.stop < (r2.start : Int)) ∧
    (∀ r ∈ wordRangesOf pages,
      ((allWordsOf pages).drop r.start).take (pageWords pages r.pageNum).length =
          pageWords pages r.pageNum ∧
      r.stop = (r.start : Int) + (pageWords pages r.pageNum).length - 1) := by
  refine ⟨rangesAux_pageNums pages _ 0, ?_, ?_⟩
  · intro r1 h1 r2 h2 hlt
    have hpw := rangesAux_pairwise pages (sortedOrdinals pages) 0
      (sortedOrdinals_pairwise_lt pages hnd)
    rcases pairwise_mem_trichotomy hpw h1 h2 with rfl | hS | hS
    · exact absurd hlt (lt_irrefl _)
    · exact hS.2
    · exact absurd hlt (not_lt_of_gt hS.1)
  · intro r hr
    have := rangesAux_slice pages (sortedOrdinals pages) 0 [] rfl r hr
    simpa [allWordsOf] using this

/-- C2 witness: the theorem applied to pages 2 and 1 loaded in reverse
order. -/
theorem c2_ranges_witness :
    (wordRangesOf [(2, [⟨['b'], false⟩, ⟨['c'], false⟩]), (1, [⟨['a'], false⟩])]).map
        WordRange.pageNum =
      sortedOrdinals [(2, [⟨['b'], false⟩, ⟨['c'], false⟩]), (1, [⟨['a'], false⟩])] ∧
    (⟨1, 0, 0⟩ : WordRange).stop <
      (((⟨2, 1, 2⟩ : WordRange)).start : Int) :=
  ⟨(c2_ranges_sorted_disjoint_contiguous
      [(2, [⟨['b'], false⟩, ⟨['c'], false⟩]), (1, [⟨['a'], false⟩])] (by decide)).1,
   (c2_ranges_sorted_disjoint_contiguous
      [(2, [⟨['b'], false⟩, ⟨['c'], false⟩]), (1, [⟨['a'], false⟩])] (by decide)).2.1
      ⟨1, 0, 0⟩ (by decide) ⟨2, 1, 2⟩ (by decide) (by decide)⟩

/-- Lookup finds a binding appended behind bindings with other keys. -/
theorem lookup_append_self {β : Type} (n : Nat) (ws : β) :
    ∀ l : List (Nat × β), List.lookup n l = none →
      List.lookup n (l ++ [(n, ws)]) = some ws := by
  intro l
  induction l with
  | nil => intro _; simp [List.lookup]
  | cons kv l ih =>
    intro h
    by_cases hk : n = kv.1
    · simp [List.lookup, hk] at h
    · simp only [List.cons_append, List.lookup, beq_eq_false_iff_ne.mpr hk] at h ⊢
      exact ih h

/-- C3, counterexample.  First trace (two pages): a waiter registered while
page 1 is being fetched is resolved by page 1's load although the background
cycle is still in flight and page 2 has not even been requested — the
promise does not wait for "no outstanding fetch and no background cycle".
Second trace (one page): a waiter registered after the last page has loaded
but before the background cycle's final self-check is still queued when the
cycle terminates — it is left unresolved forever. -/
theorem c3_counterexample :
    (let s5 := loadPageSuccess 1 ⟨['p'], [⟨['a'], false⟩]⟩
        (waitForContent 7 (loadPageCall 1 0
          (bgCheckTerminate (startBackgroundLoading (initLoader 2)))))
     s5.resolvedWaiters = [7] ∧ s5.isBackgroundLoading = true ∧
       s5.loadedPages.length < s5.totalPages) ∧
    (let t7 := bgCheckTerminate (waitForContent 9 (bgAdvance
        (loadPageSuccess 1 ⟨['p'], [⟨['a'], false⟩]⟩ (loadPageCall 1 0
          (bgCheckTerminate (startBackgroundLoading (initLoader 1)))))))
     t7.isBackgroundLoading = false ∧ t7.allPagesLoaded = true ∧
       t7.loadingPages = [] ∧ t7.contentWaiters = [9] ∧ t7.resolvedWaiters = []) := by
  exact ⟨⟨by decide, by decide, by decide⟩, ⟨by decide, by decide, by decide, by decide, by decide⟩⟩

/-- C3, amended: a `waitForContent` promise resolves immediately when no
fetch is outstanding and no background cycle is in flight; otherwise the
caller is queued, and every successful page load releases all queued
waiters, in registration order, even while the background cycle is still in
flight.  (A waiter queued when no further successful load occurs — e.g.
during the background cycle's final self-check — is never released.) -/
theorem c3_wait_resolution (s : LoaderState) (w n : Nat) (pd : PageData) :
    (s.loadingPages = [] → s.isBackgroundLoading = false →
      waitForContent w s = { s with resolvedWaiters := s.resolvedWaiters ++ [w] }) ∧
    ((0 < s.loadingPages.length ∨ s.isBackgroundLoading = true) →
      waitForContent w s = { s with contentWaiters := s.contentWaiters ++ [w] }) ∧
    ((loadPageSuccess n pd s).contentWaiters = [] ∧
      (loadPageSuccess n pd s).resolvedWaiters = s.resolvedWaiters ++ s.contentWaiters) := by
  refine ⟨?_, ?_, rfl, rfl⟩
  · intro h1 h2
    unfold waitForContent
    rw [if_neg]
    simp [h1, h2]
  · intro h
    unfold waitForContent
    rw [if_pos h]

/-- C3 witness: the amended theorem applied at a concrete busy state, a
concrete quiescent state, and a concrete page-load release. -/
theorem c3_wait_resolution_witness :
    waitForContent 5 (initLoader 3) =
      { initLoader 3 with resolvedWaiters := [5] } ∧
    waitForContent 5 (startBackgroundLoading (initLoader 3)) =
      { startBackgroundLoading (initLoader 3) with contentWaiters := [5] } ∧
    (loadPageSuccess 1 ⟨['p'], []⟩
        (waitForContent 5 (startBackgroundLoading (initLoader 3)))).contentWaiters = [] ∧
    (loadPageSuccess 1 ⟨['p'], []⟩
        (waitForContent 5 (startBackgroundLoading (initLoader 3)))).resolvedWaiters =
      (waitForContent 5 (startBackgroundLoading (initLoader 3))).resolvedWaiters ++
        (waitForContent 5 (startBackgroundLoading (initLoader 3))).contentWaiters :=
  ⟨(c3_wait_resolution (initLoader 3) 5 1 ⟨['p'], []⟩).1 (by decide) (by decide),
   (c3_wait_resolution (startBackgroundLoading (initLoader 3)) 5 1 ⟨['p'], []⟩).2.1
     (by decide),
   (c3_wait_resolution (waitForContent 5 (startBackgroundLoading (initLoader 3)))
     5 1 ⟨['p'], []⟩).2.2.1,
   (c3_wait_resolution (waitForContent 5 (startBackgroundLoading (initLoader 3)))
     5 1 ⟨['p'], []⟩).2.2.2⟩

/-- C4, counterexample: page 1's fetch is started by caller 100; a concurrent
call by 200 registers a polling waiter and issues no second fetch; the fetch
then fails.  The in-flight request has completed, the primary caller 100 is
rejected, but the concurrent caller 200 is neither resolved nor rejected,
and its polling check does not release it — it is not "released with a
failure on fetch failure". -/
theorem c4_counterexample :
    (let u2 := loadPageCall 1 200 (loadPageCall 1 100 (initLoader 1))
     u2.fetchesIssued = [1] ∧ u2.pollWaiters = [(1, 200)]) ∧
    (let u3 := loadPageFailure 1 (loadPageCall 1 200 (loadPageCall 1 100 (initLoader 1)))
     u3.rejectedCallers = [100] ∧ u3.resolvedPolls = [] ∧
       u3.pollWaiters = [(1, 200)] ∧ pollCheck 1 200 u3 = u3) := by
  exact ⟨⟨by decide, by decide⟩, ⟨by decide, by decide, by decide, by decide⟩⟩

/-- C4, amended: an already-loaded in-range page resolves the caller
immediately with the stored text; a call for an in-flight page issues no
duplicate fetch (the loading set and issued-fetch ledger are unchanged) and
merely queues the caller on the polling list; after the in-flight fetch
succeeds, the queued caller's next poll releases it with the page's text.
On fetch failure the queued caller is not released (only the primary caller
is rejected). -/
theorem c4_loadpage_coalescing (s : LoaderState) (n w : Nat) (pd pdl : PageData) :
    (s.loadedPages.lookup n = some pdl → 1 ≤ n → n ≤ s.totalPages →
      loadPageCall n w s =
        { s with resolvedPolls := s.resolvedPolls ++ [(w, some pdl.text)] }) ∧
    (s.loadedPages.lookup n = none → n ∈ s.loadingPages → 1 ≤ n → n ≤ s.totalPages →
      loadPageCall n w s = { s with pollWaiters := s.pollWaiters ++ [(n, w)] }) ∧
    (s.loadedPages.lookup n = none → (n, w) ∈ s.pollWaiters →
      pollCheck n w (loadPageSuccess n pd s) =
        { loadPageSuccess n pd s with
            pollWaiters := (loadPageSuccess n pd s).pollWaiters.erase (n, w),
            resolvedPolls := (loadPageSuccess n pd s).resolvedPolls ++ [(w, some pd.text)] }) := by
  refine ⟨?_, ?_, ?_⟩
  · intro hl h1 h2
    unfold loadPageCall
    rw [if_neg (by omega), hl]
  · intro hnone hmem h1 h2
    unfold loadPageCall
    rw [if_neg (by omega), hnone]
    simp only
    rw [if_pos hmem]
  · intro hnone hpw
    have hpoll : (loadPageSuccess n pd s).pollWaiters = s.pollWaiters := rfl
    have hlook : (loadPageSuccess n pd s).loadedPages.lookup n = some pd := by
      have : (loadPageSuccess n pd s).loadedPages = s.loadedPages ++ [(n, pd)] := rfl
      rw [this]
      exact lookup_append_self n pd s.loadedPages hnone
    unfold pollCheck
    rw [hpoll, if_pos hpw, hlook]

/-- C4 witness: the amended theorem applied at concrete loader states for
each of the three behaviors. -/
theorem c4_loadpage_coalescing_witness :
    (loadPageCall 1 7 (loadPageSuccess 1 ⟨['p'], []⟩ (initLoader 1)) =
      { loadPageSuccess 1 ⟨['p'], []⟩ (initLoader 1) with
          resolvedPolls := [(7, some ['p'])] }) ∧
    (loadPageCall 1 8 (loadPageCall 1 100 (initLoader 1)) =
      { loadPageCall 1 100 (initLoader 1) with pollWaiters := [(1, 8)] }) ∧
    (pollCheck 1 8 (loadPageSuccess 1 ⟨['p'], []⟩
        (loadPageCall 1 8 (loadPageCall 1 100 (initLoader 1)))) =
      { loadPageSuccess 1 ⟨['p'], []⟩
          (loadPageCall 1 8 (loadPageCall 1 100 (initLoader 1))) with
          pollWaiters := [],
          resolvedPolls := [(100, some ['p']), (8, some ['p'])] }) := by
  refine ⟨?_, ?_, ?_⟩
  · exact (c4_loadpage_coalescing (loadPageSuccess 1 ⟨['p'], []⟩ (initLoader 1))
      1 7 ⟨['p'], []⟩ ⟨['p'], []⟩).1 (by decide) (by decide) (by decide)
  · exact (c4_loadpage_coalescing (loadPageCall 1 100 (initLoader 1))
      1 8 ⟨['p'], []⟩ ⟨['p'], []⟩).2.1 (by decide) (by decide) (by decide) (by decide)
  · have h3 := (c4_loadpage_coalescing (loadPageCall 1 8 (loadPageCall 1 100 (initLoader 1)))
      1 8 ⟨['p'], []⟩ ⟨['p'], []⟩).2.2 (by decide) (by decide)
    exact h3.trans (by decide)

/-- C7: with the normal profile (sentence multiplier 3.0, minSentenceMs 300)
at 300 words per minute the base interval is 200 ms; the token "Hello." gets
multiplier 3.0 hence dwell 600 ms, and the token "cat" gets dwell 200 ms. -/
theorem c7_normal_profile_scenario :
    baseIntervalMs 300 = some 200 ∧
    normalProfile.sentence = 30 ∧ normalProfile.minSentenceMs = 300 ∧
    dwellMsForToken normalProfile ⟨"Hello.".toList, false⟩ 300 = some 600 ∧
    dwellMsForToken normalProfile ⟨"cat".toList, false⟩ 300 = some 200 := by
  refine ⟨by decide, by decide, by decide, by decide, by decide⟩

/-- C5, counterexample: at the invalid rate 0 the pacing computation does
return a null dwell, but `setPlaying(true)` records the Playing state
(`isPlaying = true`) instead of staying Paused, and nothing reports the
condition. -/
theorem c5_counterexample :
    (setPlaying true ⟨0, "normal", false, none, 0, [⟨"cat".toList, false⟩], false⟩).map
        SchedState.isPlaying = some true ∧
    dwellMsForToken normalProfile ⟨"cat".toList, false⟩ 0 = none := by
  refine ⟨by decide, by decide⟩

/-- C5, amended: whenever the configured rate is invalid (wpm ≤ 0), the
pacing computation returns a null dwell and `setPlaying(true)` skips
scheduling entirely — the state records Playing but no timer is ever armed
(so the scheduler does not spin), and no report is made. -/
theorem c5_invalid_rate_no_scheduling (s : SchedState) (p : PauseProfile) (t : Tok)
    (h : s.wpm ≤ 0) :
    baseIntervalMs s.wpm = none ∧
    dwellMsForToken p t s.wpm = none ∧
    setPlaying true s = some { s with isPlaying := true, timer := none } := by
  refine ⟨?_, ?_, ?_⟩
  · simp only [baseIntervalMs, if_pos h]
  · simp only [dwellMsForToken, baseIntervalMs, if_pos h]
  · have hwpm : ({ s with isPlaying := true, timer := none } : SchedState).wpm = s.wpm := rfl
    have hc : ¬ (true = true ∧ 0 < ({ s with isPlaying := true, timer := none } : SchedState).wpm) := by
      rintro ⟨-, hlt⟩
      rw [hwpm] at hlt
      omega
    unfold setPlaying
    rw [if_neg hc]

/-- C5 witness: the amended theorem applied at a concrete paused state with
rate 0. -/
theorem c5_invalid_rate_no_scheduling_witness :
    baseIntervalMs 0 = none ∧
    dwellMsForToken normalProfile ⟨"dog".toList, false⟩ 0 = none ∧
    setPlaying true ⟨0, "normal", false, none, 0, [⟨"dog".toList, false⟩], false⟩ =
      some ⟨0, "normal", true, none, 0, [⟨"dog".toList, false⟩], false⟩ :=
  c5_invalid_rate_no_scheduling ⟨0, "normal", false, none, 0, [⟨"dog".toList, false⟩], false⟩
    normalProfile ⟨"dog".toList, false⟩ (by decide)

/-- C8: `tokenize` is total and never yields an empty sequence; input from
which the scan produces no token (empty or unparseable input) yields exactly
the single whitespace token with `isParagraphEnd = false`. -/
theorem c8_tokenize_total (s : List Char) :
    tokenize s ≠ [] ∧ (tokenizeCore s = [] → tokenize s = [⟨[' '], false⟩]) := by
  by_cases h : tokenizeCore s = [] <;> simp [tokenize, h]

/-- C8 witness: the theorem applied to the empty input. -/
theorem c8_tokenize_total_witness :
    tokenize [] ≠ [] ∧ tokenize [] = [⟨[' '], false⟩] :=
  ⟨(c8_tokenize_total []).1, (c8_tokenize_total []).2 (by decide)⟩

/-- C6: for every profile of the PAUSE_PROFILES table and every rate in
[50, 1500], a sentence-ending token's dwell is defined and at least
`minSentenceMs`, and a comma-ending token's dwell is defined and at least
`minCommaMs`. -/
theorem c6_minimum_dwell (kp : String × PauseProfile) (_hk : kp ∈ pauseProfiles)
    (t : Tok) (wpm : Int) (h1 : 50 ≤ wpm) (h2 : wpm ≤ 1500) :
    (endsSentence t.word = true →
      (dwellMsForToken kp.2 t wpm).isSome = true ∧
      kp.2.minSentenceMs ≤ (dwellMsForToken kp.2 t wpm).getD 0) ∧
    (endsComma t.word = true →
      (dwellMsForToken kp.2 t wpm).isSome = true ∧
      kp.2.minCommaMs ≤ (dwellMsForToken kp.2 t wpm).getD 0) := by
  have hb : baseIntervalMs wpm = some (max 1 (60000 / wpm)) := by
    unfold baseIntervalMs
    rw [if_neg]
    omega
  constructor
  · intro hs
    unfold dwellMsForToken
    rw [hb]
    simp only [hs, eq_self_iff_true, if_true, not_true, false_and, if_false,
      Option.isSome_some, Option.getD_some, true_and]
    exact le_max_right _ _
  · intro hc
    have hs := endsComma_not_endsSentence t.word hc
    unfold dwellMsForToken
    rw [hb]
    simp only [hs, hc, Bool.false_eq_true, if_false, eq_self_iff_true, if_true,
      not_false_iff, true_and, and_true, not_false_eq_true, Option.isSome_some,
      Option.getD_some]
    exact le_max_right _ _

/-- C6 witness: the theorem applied with the normal profile at 300 words per
minute, to a sentence-ending and to a comma-ending token. -/
theorem c6_minimum_dwell_witness :
    ((dwellMsForToken normalProfile ⟨"Hi.".toList, false⟩ 300).isSome = true ∧
      normalProfile.minSentenceMs ≤ (dwellMsForToken normalProfile ⟨"Hi.".toList, false⟩ 300).getD 0) ∧
    ((dwellMsForToken normalProfile ⟨"so,".toList, false⟩ 300).isSome = true ∧
      normalProfile.minCommaMs ≤ (dwellMsForToken normalProfile ⟨"so,".toList, false⟩ 300).getD 0) :=
  ⟨(c6_minimum_dwell ("normal", normalProfile) (by decide) ⟨"Hi.".toList, false⟩ 300
      (by decide) (by decide)).1 (by decide),
   (c6_minimum_dwell ("normal", normalProfile) (by decide) ⟨"so,".toList, false⟩ 300
      (by decide) (by decide)).2 (by decide)⟩

end RSVP
